import Mathlib

/-!
Verification development for a CODEOWNERS-style ownership-resolution engine
and the npm package-file extractor.

The engine's implementation file (`workers/repository/update/pr/code-owners.ts`)
is not part of the repository excerpt: only its test suite is.  Every definition
in the `CodeOwners` namespace is therefore modelled from the specification
(sections 4.1-4.5 of the design document), and validated below against the
concrete behaviours recorded in the test suite.

The npm extractor (`lib/modules/manager/npm/extract/index.ts`) is present in the
excerpt; the `Npm` namespace embeds it, with its file-system / JSON / sibling
collaborators passed in as explicit parameters.
-/

namespace CodeOwners

/-- Modelled from the spec: whitespace recognised when trimming and tokenising
ownership-file lines (`code-owners.ts` is missing from the excerpt). -/
def isWs (c : Char) : Bool :=
  c == ' ' || c == '\t' || c == '\r' || c == '\n'

/-- Splits a character list at every character satisfying `p`
(the separators are dropped; empty fields are kept). -/
def splitPred (p : Char → Bool) : List Char → List (List Char)
  | [] => [[]]
  | c :: cs =>
    match splitPred p cs with
    | [] => [[]]
    | h :: t => if p c then [] :: h :: t else (c :: h) :: t

/-- Splits a character list at every occurrence of `sep`. -/
def splitOnChar (sep : Char) : List Char → List (List Char) :=
  splitPred (fun c => c == sep)

/-- Modelled from the spec: trim leading and trailing whitespace of a line. -/
def trimL (l : List Char) : List Char :=
  ((l.dropWhile isWs).reverse.dropWhile isWs).reverse

/-- Modelled from the spec: strip a trailing inline comment (everything from
the first `#` to the end of the line) and trim the remainder. -/
def stripCommentL (l : List Char) : List Char :=
  trimL (l.takeWhile (fun c => !(c == '#')))

/-- Modelled from the spec: split the raw document into lines, strip comments,
trim each line, and drop the lines that are left blank. -/
def cleanLinesL (t : List Char) : List (List Char) :=
  ((splitOnChar '\n' t).map stripCommentL).filter (fun l => !l.isEmpty)

/-- Modelled from the spec: whitespace-separated tokens of a line. -/
def tokensL (l : List Char) : List (List Char) :=
  (splitPred isWs l).filter (fun t => !t.isEmpty)

/-- The suffixes of `s` reachable by letting `*` consume a run of
non-separator characters (a `*` never crosses a `/`). -/
def starSuffixes : List Char → List (List Char)
  | [] => [[]]
  | c :: cs => (c :: cs) :: (if c == '/' then [] else starSuffixes cs)

/-- Modelled from the spec: glob match of one path segment, where `*` matches
any run of characters not containing a path separator. -/
def globMatch : List Char → List Char → Bool
  | [], s => s.isEmpty
  | c :: ps, s =>
    if c == '*' then (starSuffixes s).any (fun t => globMatch ps t)
    else
      match s with
      | [] => false
      | d :: ds => c == d && globMatch ps ds

/-- Matches a slash-separated pattern against a slash-separated path,
segment by segment (an anchored whole-path glob match). -/
def segsMatch : List (List Char) → List (List Char) → Bool
  | [], [] => true
  | p :: ps, f :: fs => globMatch p f && segsMatch ps fs
  | _, _ => false

/-- The base name (the part after the last `/`) of a path. -/
def baseNameL (p : List Char) : List Char :=
  match (splitOnChar '/' p).getLast? with
  | some s => s
  | none => p

/-- Modelled from the spec (4.1, Pattern Matcher; `code-owners.ts` is missing
from the excerpt): `*` matches every file; a pattern ending in `/` matches the
directory itself and everything beneath it; a pattern containing `/` is
anchored at the document root (and a literal one also matches as a directory
prefix); a pattern with no `/` matches the file's base name at any depth. -/
def matchesL (pattern filePath : List Char) : Bool :=
  if pattern == ['*'] then true
  else if pattern.getLast? == some '/' then
    pattern.isPrefixOf filePath || filePath == pattern.dropLast
  else if pattern.contains '/' then
    segsMatch (splitOnChar '/' pattern) (splitOnChar '/' filePath)
      || (pattern ++ ['/']).isPrefixOf filePath
  else
    globMatch pattern (baseNameL filePath)

/-- Modelled from the spec: pattern matcher on strings. -/
def matchPattern (pattern filePath : String) : Bool :=
  matchesL pattern.toList filePath.toList

/-- Modelled from the spec (3, Data Model): one parsed ownership rule.
An empty `owners` list is a first-class orphan marker. -/
structure Rule where
  pattern : String
  owners : List String
deriving Repr, DecidableEq

/-- Modelled from the spec (3, Data Model): a named (or implicit default)
group of rules, with its default owners and optional marker. -/
structure Section where
  name : Option String
  defaultOwners : List String
  optional : Bool
  rules : List Rule
deriving Repr, DecidableEq

/-- Modelled from the spec: a cleaned line parsed as a rule: the first
whitespace-separated token is the pattern, the remaining tokens the owners;
a line with no tokens is discarded. -/
def parseRuleLine (l : List Char) : Option Rule :=
  match tokensL l with
  | [] => none
  | p :: os => some ⟨String.mk p, os.map String.mk⟩

/-- Modelled from the spec (4.2, Default strategy): every cleaned line is a
rule line; all rules belong to one implicit default section. -/
def parseDefault (text : String) : List Section :=
  [⟨none, [], false, (cleanLinesL text.toList).filterMap parseRuleLine⟩]

/-- Recognises `[name] owners...` at the very start of an already-trimmed
line (the leading optional marker has been removed by the caller). -/
def parseHeaderCore (l : List Char) (opt : Bool) :
    Option (String × Bool × List String) :=
  match l with
  | [] => none
  | c :: rest =>
    if c == '[' then
      let name := rest.takeWhile (fun d => !(d == ']'))
      match rest.dropWhile (fun d => !(d == ']')) with
      | [] => none
      | _ :: after => some (String.mk name, opt, (tokensL after).map String.mk)
    else none

/-- Modelled from the spec (4.2, Sectioned strategy): a cleaned line opens a
section only if it begins with an optional leading `^` marker immediately
followed by `[name]`; the tokens after the bracket become the section's
default owners. -/
def parseSectionHeader (l : List Char) : Option (String × Bool × List String) :=
  if ['^'].isPrefixOf l then parseHeaderCore (l.drop 1) true
  else parseHeaderCore l false

/-- Modelled from the spec: one step of the sectioned parse: a header line
closes the current section and opens a new one; any other line is parsed as a
rule of the current section (inheriting the section's default owners when it
lists none) or silently discarded. -/
def parseStep (st : List Section × Section) (line : List Char) :
    List Section × Section :=
  match parseSectionHeader line with
  | some (name, opt, defs) => (st.1 ++ [st.2], ⟨some name, defs, opt, []⟩)
  | none =>
    match parseRuleLine line with
    | some r =>
      let r' := if r.owners.isEmpty then { r with owners := st.2.defaultOwners } else r
      (st.1, { st.2 with rules := st.2.rules ++ [r'] })
    | none => (st.1, st.2)

/-- Modelled from the spec (4.2, Sectioned strategy): lines before the first
header belong to the implicit default section, which stays first in
declaration order. -/
def parseSectioned (text : String) : List Section :=
  let st := (cleanLinesL text.toList).foldl parseStep ([], ⟨none, [], false, []⟩)
  st.1 ++ [st.2]

/-- Modelled from the spec (9, Design Notes): the pluggable dialect choice,
selected by the platform's section capability. -/
inductive Strategy where
  | default
  | sectioned
deriving Repr, DecidableEq

/-- Modelled from the spec: dialect parser dispatch. -/
def parse : Strategy → String → List Section
  | Strategy.default, t => parseDefault t
  | Strategy.sectioned, t => parseSectioned t

/-- Modelled from the spec (3, Data Model): a file's per-section
contribution. -/
structure Contribution where
  specificOwners : List String
  triggersFallback : Bool
deriving Repr, DecidableEq

/-- Modelled from the spec (4.3): the winning rule is the last rule, in
declaration order, whose pattern matches the file. -/
def winningRule (filePath : String) (rules : List Rule) : Option Rule :=
  (rules.filter (fun r => matchPattern r.pattern filePath)).getLast?

/-- Modelled from the spec (4.3, Rule Resolver): no match contributes nothing;
a winning global rule contributes no specific owners but triggers the
fallback; a winning orphan rule suppresses even the fallback; any other
winning rule contributes its owners and triggers the fallback. -/
def resolve (filePath : String) (sec : Section) : Contribution :=
  match winningRule filePath sec.rules with
  | none => ⟨[], false⟩
  | some r =>
    if r.pattern == "*" then ⟨[], true⟩
    else if r.owners.isEmpty then ⟨[], false⟩
    else ⟨r.owners, true⟩

/-- Keeps the first occurrence of every element, dropping later repeats. -/
def dedupKeepFirst : List String → List String
  | [] => []
  | x :: xs => x :: (dedupKeepFirst xs).filter (fun y => !(y == x))

/-- Bumps `o`'s frequency counter, first-encounter order preserved. -/
def addOwner : List (String × Nat) → String → List (String × Nat)
  | [], o => [(o, 1)]
  | (p, c) :: rest, o =>
    if p == o then (p, c + 1) :: rest else (p, c) :: addOwner rest o

/-- Modelled from the spec (4.4): one file's specific owners bump their
counters at most once per file each. -/
def bumpFile (acc : List (String × Nat)) (owners : List String) :
    List (String × Nat) :=
  (dedupKeepFirst owners).foldl addOwner acc

/-- Modelled from the spec (4.4): frequency counters per distinct specific
owner, listed in first-encounter order. -/
def ownerFreqs (files : List String) (sec : Section) : List (String × Nat) :=
  files.foldl (fun acc f => bumpFile acc (resolve f sec).specificOwners) []

/-- Inserts an entry into a list sorted by count descending, after every
entry with a strictly larger count and before the rest (a stable insert). -/
def insertRanked (x : String × Nat) : List (String × Nat) → List (String × Nat)
  | [] => [x]
  | y :: ys => if y.2 > x.2 then y :: insertRanked x ys else x :: y :: ys

/-- Stable insertion sort by count descending. -/
def sortRanked : List (String × Nat) → List (String × Nat)
  | [] => []
  | x :: xs => insertRanked x (sortRanked xs)

/-- Modelled from the spec (4.4): the specific portion: distinct specific
owners sorted by frequency descending, first-encounter order on ties. -/
def specificPortion (files : List String) (sec : Section) : List String :=
  (sortRanked (ownerFreqs files sec)).map Prod.fst

/-- Modelled from the spec (4.4): the owners of the section's global (`*`)
rule, empty when the section has none. -/
def globalOwners (sec : Section) : List String :=
  match (sec.rules.filter (fun r => r.pattern == "*")).getLast? with
  | some r => r.owners
  | none => []

/-- Whether at least one changed file's contribution triggers the section's
fallback. -/
def triggersAny (files : List String) (sec : Section) : Bool :=
  files.any (fun f => (resolve f sec).triggersFallback)

/-- Modelled from the spec (4.4, Owner Ranker): specific portion followed by
the fallback portion; the fallback appears only when some file triggered it,
and drops owners already present in the specific portion. -/
def rank (files : List String) (sec : Section) : List String :=
  let specific := specificPortion files sec
  let fallback :=
    if triggersAny files sec then
      (dedupKeepFirst (globalOwners sec)).filter (fun o => !(specific.contains o))
    else []
  specific ++ fallback

/-- Concatenates per-section results, deduping each against the owners
already accumulated from earlier (higher-priority) sections. -/
def concatDedupe (acc : List String) : List (List String) → List String
  | [] => acc
  | l :: ls => concatDedupe (acc ++ l.filter (fun o => !(acc.contains o))) ls

/-- Modelled from the spec (4.5, step 4): sections are ranked in reverse
declaration order and their results concatenated with cross-section
dedupe. -/
def codeOwnersForSections (secs : List Section) (files : List String) :
    List String :=
  concatDedupe [] (secs.reverse.map (rank files))

/-- Modelled from the spec (4.5, Ownership Resolution Engine;
`code-owners.ts` is missing from the excerpt): a failed or absent read of the
ownership file, or an empty changed-file list, yields no owners; otherwise
the document is parsed with the platform's strategy and the sections are
ranked and concatenated.  The function is total: no input raises. -/
def codeOwnersFor (readResult : Except Unit (Option String))
    (files : List String) (strategy : Strategy) : List String :=
  match readResult with
  | Except.error _ => []
  | Except.ok none => []
  | Except.ok (some text) =>
    if files.isEmpty then []
    else codeOwnersForSections (parse strategy text) files

/-- The document of the specific-owners scenario (claim C1). -/
def specificDoc : String := "* @jimmy\npackage.json @john @maria"

/-- The document of the orphan-rule scenario (claim C2). -/
def orphanDoc : String := "* @jimmy\nyarn.lock"

/-- The document of the frequency-ranking scenario (claim C3). -/
def monorepoDoc : String :=
  "* @john\nyarn.lock\npackages/d/ @maria @jimmy\npackages/e/ @jimmy"

/-- The sectioned document of the test suite, with a default section, the
`[Documentation]`, `^[Optional]` and `[Database]` sections, and an invalid
header appearing mid-line (claims C4 and C6). -/
def sectionedDoc : String :=
  "# Required for all files\n* @general-approvers\n\n[Documentation] @docs-team\ndocs/\nREADME.md\n*.txt\n\n# Invalid section\nSomething before [Tests] @tests-team\ntests/\n\n# Optional section\n^[Optional] @optional-team\noptional/\n\n[Database] @database-team\nmodel/db/\nconfig/db/database-setup.md @docs-team"

/-- The Gitea-style document whose first rule line begins with a bracketed
regex token (claim C7). -/
def giteaDoc : String :=
  "# This is a regex, not a Gitlab section, so 002-file.md should be assigned to @reviewer-03\n[0-3].*/*.md$ @reviewer-03\n002-file.md\n\n[4-9].*/*.md$ @reviewer-49"

/-- The wildcard-plus-specific document of regression test 12611
(claim C8). -/
def regressionDoc : String :=
  "* @reviewer-1 @reviewer-2 @reviewer-3 @reviewer-4 @reviewer-5\n\nserver/pom.xml @reviewer-1\nclient/package.json @reviewer-1\nclient/package-lock.json @reviewer-1"

/-- The document with comment lines, whitespace-only lines and inline
comments (claim C9). -/
def messyDoc : String :=
  "# comment line\n    \t    \n   * @jimmy     # inline comment     \n        # comment line with leading whitespace\n package.json @john @maria#inline comment without leading whitespace  "

/-- The clean equivalent of `messyDoc` (claim C9). -/
def cleanDoc : String := "* @jimmy\npackage.json @john @maria"

end CodeOwners

namespace Npm

/-- One dependency record, with the fields `extractPackageFile` reads or
writes (`lib/modules/manager/npm/extract/index.ts`). -/
structure Dep where
  depName : Option String
  packageName : Option String
  currentValue : Option String
  datasource : Option String
  registryUrls : Option (List String)
deriving Repr, DecidableEq

/-- The `workspaces` field of a parsed package file: either an array of
package globs or an object with an optional `packages` array. -/
inductive Workspaces where
  | arr (packages : List String)
  | obj (packages : Option (List String))
deriving Repr, DecidableEq

/-- The parsed package-file object, restricted to the fields
`extractPackageFile` reads.  `devEnginesPackageManagerNonEmpty` models the
host-side check `is.nonEmptyObject(packageJson.devEngines?.packageManager)`. -/
structure NpmPackage where
  workspaces : Option Workspaces
  packageManager : Option String
  devEnginesPackageManagerNonEmpty : Bool
deriving Repr, DecidableEq

/-- The `managerData` part of `extractPackageJson`'s result, restricted to
the field `extractPackageFile` reads. -/
structure NpmManagerDataIn where
  packageJsonName : Option String
deriving Repr, DecidableEq

/-- The result of `extractPackageJson` (defined in
`extract/common/package-file.ts`, outside the excerpt; supplied as a
collaborator). -/
structure PackageJsonRes where
  deps : List Dep
  managerData : Option NpmManagerDataIn
  packageFileVersion : Option String
deriving Repr, DecidableEq

/-- The configuration fields `extractPackageFile` reads.  `skipInstalls`'s
`none` models the JS `null`. -/
structure ExtractConfig where
  npmrc : Option String
  npmrcMerge : Bool
  skipInstalls : Option Bool
deriving Repr, DecidableEq

/-- The collaborators of `extractPackageFile`: JSON parsing, the
file-system utilities, the yarnrc loaders (over an abstract yarn-config type
`YC`) and the global `exposeAllEnv` flag.  `parseJson content = none` models
`JSON.parse(content)` throwing. -/
structure NpmEnv (YC : Type) where
  parseJson : String → Option NpmPackage
  extractPackageJson : NpmPackage → String → Option PackageJsonRes
  readLocalFile : String → Option String
  getSiblingFileName : String → String → String
  findLocalSiblingOrParent : String → String → Option String
  isZeroInstall : String → Bool
  loadConfigFromYarnrcYml : String → Option YC
  loadConfigFromLegacyYarnrc : String → Option YC
  resolveRegistryUrl : String → YC → Option String
  exposeAllEnv : Bool
  getExtractedConstraints : List Dep → List (String × String)

/-- JS truthiness of a possibly-undefined string: truthy iff present and
non-empty. -/
def truthyStr : Option String → Bool
  | some s => !(s == "")
  | none => false

/-- All suffixes of a character list. -/
def tails : List Char → List (List Char)
  | [] => [[]]
  | c :: cs => (c :: cs) :: tails cs

/-- Substring containment, as in the JS `String.includes`. -/
def includes (needle hay : String) : Bool :=
  (tails hay.toList).any (fun t => needle.toList.isPrefixOf t)

/-- Joins lines back with newlines (the JS `Array.join('\n')`). -/
def joinLines : List (List Char) → List Char
  | [] => []
  | [l] => l
  | l :: ls => l ++ '\n' :: joinLines ls

/-- The left-to-right scan of the host regex replace
`repoNpmrc.replace(regEx(/(^|\n)package-lock.*?(\n|$)/g), '\n')` for matches
anchored on a literal `\n`.  In the copying state (first argument `false`)
characters are copied verbatim until a `\n` immediately followed by
`package-lock` opens a match: the replacement `\n` is emitted and the
skipping state consumes the rest of the match — `package-lock`, the lazy
`.*?` run of non-newline characters, and the terminating `\n` (or the end of
the string, where `$` matches).  Scanning resumes only after the consumed
terminator, so a directly following `package-lock` line has no leading `\n`
left to anchor on and survives, exactly as under the `g` flag. -/
def replacePackageLockScan : Bool → List Char → List Char
  | _, [] => []
  | true, c :: cs =>
    if c == '\n' then replacePackageLockScan false cs
    else replacePackageLockScan true cs
  | false, c :: cs =>
    if c == '\n' && "package-lock".toList.isPrefixOf cs then
      '\n' :: replacePackageLockScan true cs
    else c :: replacePackageLockScan false cs

/-- Models `repoNpmrc.replace(regEx(/(^|\n)package-lock.*?(\n|$)/g), '\n')`
(source lines 110-113).  The `^` alternative (no `m` flag) can only anchor a
match at position 0, handled here by starting the scan directly in the
skipping state after emitting the replacement `\n`; every later match is
anchored on a literal `\n` by `replacePackageLockScan`.  Each match is
replaced by `\n` — a repo `.npmrc` that is a lone `package-lock=...` line
therefore becomes the truthy string `"\n"`, not `""`. -/
def stripPackageLockSetting (s : String) : String :=
  if "package-lock".toList.isPrefixOf s.toList then
    String.mk ('\n' :: replacePackageLockScan true s.toList)
  else
    String.mk (replacePackageLockScan false s.toList)

/-- Models `repoNpmrc.split(newlineRegex).filter(l => !l.includes('=${')).join('\n')`:
drops every line containing a `=$\x7b` environment-variable reference. -/
def stripVariableLines (s : String) : String :=
  String.mk (joinLines ((CodeOwners.splitOnChar '\n' s.toList).filter
    (fun l => !((tails l).any (fun t => "=$\x7b".toList.isPrefixOf t)))))

/-- The npmrc assembly of `extractPackageFile` (source lines 90-130):
returns the computed `npmrc` and the located `.npmrc` file name. -/
def computeNpmrc {YC : Type} (env : NpmEnv YC) (packageFile : String)
    (config : ExtractConfig) : Option String × Option String :=
  match env.findLocalSiblingOrParent packageFile ".npmrc" with
  | some npmrcFileName =>
    match env.readLocalFile npmrcFileName with
    | some repoNpmrc₀ =>
      if config.npmrc.isSome && !config.npmrcMerge then
        (config.npmrc, some npmrcFileName)
      else
        let base := match config.npmrc with | some s => s | none => ""
        let base :=
          if !(base == "") && !(base.toList.getLast? == some '\n')
          then base ++ "\n" else base
        let repoNpmrc₁ :=
          if includes "package-lock" repoNpmrc₀
          then stripPackageLockSetting repoNpmrc₀ else repoNpmrc₀
        let repoNpmrc₂ :=
          if includes "=$\x7b" repoNpmrc₁ && !env.exposeAllEnv
          then stripVariableLines repoNpmrc₁ else repoNpmrc₁
        (some (base ++ repoNpmrc₂), some npmrcFileName)
    | none => (none, some npmrcFileName)
  | none =>
    match config.npmrc with
    | some s => (some s, none)
    | none => (none, none)

/-- One entry of the lock-file probing loop (source lines 69-79): the
sibling path when the file reads back as a non-empty string. -/
def lockFilePath {YC : Type} (env : NpmEnv YC) (packageFile fileName : String) :
    Option String :=
  let filePath := env.getSiblingFileName packageFile fileName
  match env.readLocalFile filePath with
  | some s => if s == "" then none else some filePath
  | none => none

/-- `hasMultipleLockFiles` of the source: more than one of the final lock
entries is a string. -/
def hasMultipleLockFiles (yarnLock pnpmShrinkwrap npmLock : Option String) :
    Bool :=
  ([yarnLock, pnpmShrinkwrap, npmLock].filterMap id).length > 1

/-- `workspacesPackages` of the source (lines 55-60): the array itself when
`workspaces` is an array, otherwise `workspaces?.packages`. -/
def workspacesPackagesOf (p : NpmPackage) : Option (List String) :=
  match p.workspaces with
  | some (Workspaces.arr ps) => some ps
  | some (Workspaces.obj ps) => ps
  | none => none

/-- `is.nonEmptyStringAndNotWhitespace`: present, non-empty and containing a
non-whitespace character. -/
def nonEmptyStringAndNotWhitespace : Option String → Bool
  | some s => s.toList.any (fun c => !CodeOwners.isWs c)
  | none => false

/-- The record built and returned by `extractPackageFile` (restricted to the
fields the function itself assembles). -/
structure ExtractResult where
  deps : List Dep
  packageFileVersion : Option String
  packageJsonName : Option String
  npmrc : Option String
  yarnLock : Option String
  npmLock : Option String
  pnpmShrinkwrap : Option String
  yarnZeroInstall : Bool
  hasPackageManager : Bool
  workspacesPackages : Option (List String)
  npmrcFileName : Option String
  skipInstalls : Bool
  extractedConstraints : List (String × String)
deriving Repr, DecidableEq

/-- `extractPackageFile` of `lib/modules/manager/npm/extract/index.ts`,
with its collaborators supplied through `env`.  Returns `none` exactly where
the source returns `null`; the source's `try/catch` around `JSON.parse` is
the `parseJson = none` case.  The function is total: no input raises. -/
def extractPackageFile {YC : Type} (env : NpmEnv YC)
    (content packageFile : String) (config : ExtractConfig) :
    Option ExtractResult :=
  match env.parseJson content with
  | none => none
  | some packageJson =>
    match env.extractPackageJson packageJson packageFile with
    | none => none
    | some res =>
      let workspacesPackages := workspacesPackagesOf packageJson
      let yarnLock := lockFilePath env packageFile "yarn.lock"
      let packageLock := lockFilePath env packageFile "package-lock.json"
      let shrinkwrapJson := lockFilePath env packageFile "npm-shrinkwrap.json"
      let pnpmShrinkwrap := lockFilePath env packageFile "pnpm-lock.yaml"
      let npmLock := match packageLock with
        | some p => some p
        | none => shrinkwrapJson
      let npmrcPair := computeNpmrc env packageFile config
      let yarnrcYmlFileName := env.findLocalSiblingOrParent packageFile ".yarnrc.yml"
      let yarnZeroInstall := match yarnrcYmlFileName with
        | some f => env.isZeroInstall f
        | none => false
      let repoYarnrcYml := match yarnrcYmlFileName with
        | some f => env.readLocalFile f
        | none => none
      let yarnConfig : Option YC := match repoYarnrcYml with
        | some s =>
          if (CodeOwners.trimL s.toList).length > 0
          then env.loadConfigFromYarnrcYml s else none
        | none => none
      let legacyYarnrcFileName := env.findLocalSiblingOrParent packageFile ".yarnrc"
      let repoLegacyYarnrc := match legacyYarnrcFileName with
        | some f => env.readLocalFile f
        | none => none
      let yarnConfig : Option YC := match repoLegacyYarnrc with
        | some s =>
          if (CodeOwners.trimL s.toList).length > 0
          then env.loadConfigFromLegacyYarnrc s else yarnConfig
        | none => yarnConfig
      if res.deps.isEmpty
          && !(truthyStr (match res.managerData with
                | some md => md.packageJsonName
                | none => none)
              || truthyStr res.packageFileVersion
              || truthyStr npmrcPair.1
              || workspacesPackages.isSome) then
        none
      else
        let skipInstalls := match config.skipInstalls with
          | some b => b
          | none =>
            let hasFancyRefs := res.deps.any (fun d =>
              match d.currentValue with
              | some v =>
                "file:".toList.isPrefixOf v.toList
                  || "npm:".toList.isPrefixOf v.toList
              | none => false)
            if (hasFancyRefs && npmLock.isSome) || yarnZeroInstall
            then false else true
        let extractedConstraints := env.getExtractedConstraints res.deps
        let deps := match yarnConfig with
          | some yc => res.deps.map (fun d =>
              match d.depName with
              | some dn =>
                match env.resolveRegistryUrl
                    (match d.packageName with | some p => p | none => dn) yc with
                | some url =>
                  if d.datasource == some "npm"
                  then { d with registryUrls := some [url] } else d
                | none => d
              | none => d)
          | none => res.deps
        some {
          deps := deps
          packageFileVersion := res.packageFileVersion
          packageJsonName := match res.managerData with
            | some md => md.packageJsonName
            | none => none
          npmrc := npmrcPair.1
          yarnLock := yarnLock
          npmLock := npmLock
          pnpmShrinkwrap := pnpmShrinkwrap
          yarnZeroInstall := yarnZeroInstall
          hasPackageManager :=
            nonEmptyStringAndNotWhitespace packageJson.packageManager
              || packageJson.devEnginesPackageManagerNonEmpty
          workspacesPackages := workspacesPackages
          npmrcFileName := npmrcPair.2
          skipInstalls := skipInstalls
          extractedConstraints := extractedConstraints }

end Npm

namespace CodeOwners

/-- A one-rule section (a lone global rule) used to instantiate universal
statements at a concrete input. -/
def witnessSection : Section := ⟨none, [], false, [⟨"*", ["@jimmy"]⟩]⟩

/-- A section whose last rule is an orphan rule shadowing the global rule. -/
def orphanSection : Section :=
  ⟨none, [], false, [⟨"*", ["@jimmy"]⟩, ⟨"yarn.lock", []⟩]⟩

/-- A two-owner section used to instantiate the ranking statements. -/
def rankSection : Section :=
  ⟨none, [], false, [⟨"x*", ["@x"]⟩, ⟨"y*", ["@y"]⟩]⟩

end CodeOwners

namespace Npm

/-- A package-file object with nothing in it, for concrete instantiation. -/
def witnessPackage : NpmPackage := ⟨none, none, false⟩

/-- An `extractPackageJson` result with no deps, name or version. -/
def witnessRes : PackageJsonRes := ⟨[], none, none⟩

/-- A configuration with no npmrc and `skipInstalls` unset. -/
def witnessConfig : ExtractConfig := ⟨none, false, none⟩

/-- A concrete collaborator environment over a trivial yarn-config type:
only the literal `\x7b\x7d` parses, and every file-system lookup misses. -/
def unitEnv : NpmEnv Unit where
  parseJson := fun s => if s == "\x7b\x7d" then some witnessPackage else none
  extractPackageJson := fun _ _ => some witnessRes
  readLocalFile := fun _ => none
  getSiblingFileName := fun p _ => p
  findLocalSiblingOrParent := fun _ _ => none
  isZeroInstall := fun _ => false
  loadConfigFromYarnrcYml := fun _ => none
  loadConfigFromLegacyYarnrc := fun _ => none
  resolveRegistryUrl := fun _ _ => none
  exposeAllEnv := false
  getExtractedConstraints := fun _ => []

end Npm

namespace CodeOwners

theorem mem_dedupKeepFirst {a : String} : ∀ {l : List String},
    a ∈ dedupKeepFirst l → a ∈ l
  | [], h => by simp [dedupKeepFirst] at h
  | x :: xs, h => by
    simp only [dedupKeepFirst, List.mem_cons] at h
    rcases h with h | h
    · exact h ▸ List.mem_cons_self x xs
    · exact List.mem_cons_of_mem x (mem_dedupKeepFirst (List.mem_filter.mp h).1)

theorem nodup_dedupKeepFirst : ∀ l : List String, (dedupKeepFirst l).Nodup
  | [] => List.nodup_nil
  | x :: xs => by
    simp only [dedupKeepFirst]
    refine List.nodup_cons.mpr ⟨fun hx => ?_, (nodup_dedupKeepFirst xs).filter _⟩
    have := (List.mem_filter.mp hx).2
    simp at this

theorem mem_fst_addOwner {a o : String} : ∀ {acc : List (String × Nat)},
    a ∈ (addOwner acc o).map Prod.fst → a = o ∨ a ∈ acc.map Prod.fst
  | [], h => by
    simp [addOwner] at h
    exact Or.inl h
  | (p, c) :: rest, h => by
    by_cases hp : p == o
    · simp only [addOwner, hp, if_pos] at h
      exact Or.inr h
    · simp only [addOwner, hp, Bool.false_eq_true, if_false, List.map_cons,
        List.mem_cons] at h
      rcases h with h | h
      · exact Or.inr (by simp [h])
      · rcases mem_fst_addOwner h with h' | h'
        · exact Or.inl h'
        · exact Or.inr (List.mem_cons_of_mem _ h')

theorem nodup_fst_addOwner {o : String} : ∀ {acc : List (String × Nat)},
    (acc.map Prod.fst).Nodup → ((addOwner acc o).map Prod.fst).Nodup
  | [], _ => by simp [addOwner]
  | (p, c) :: rest, h => by
    simp only [List.map_cons, List.nodup_cons] at h
    by_cases hp : p == o
    · simpa [addOwner, hp] using h
    · simp only [addOwner, hp, Bool.false_eq_true, if_false, List.map_cons,
        List.nodup_cons]
      refine ⟨fun hmem => ?_, nodup_fst_addOwner h.2⟩
      rcases mem_fst_addOwner hmem with h' | h'
      · exact hp (by simp [h'])
      · exact h.1 h'

theorem nodup_fst_bumpFile {acc : List (String × Nat)} {owners : List String}
    (h : (acc.map Prod.fst).Nodup) : ((bumpFile acc owners).map Prod.fst).Nodup := by
  unfold bumpFile
  generalize dedupKeepFirst owners = os
  induction os generalizing acc with
  | nil => exact h
  | cons o os ih => exact ih (nodup_fst_addOwner h)

theorem nodup_fst_ownerFreqs (files : List String) (sec : Section) :
    ((ownerFreqs files sec).map Prod.fst).Nodup := by
  unfold ownerFreqs
  have h : ∀ (fs : List String) (acc : List (String × Nat)),
      (acc.map Prod.fst).Nodup →
      ((List.foldl (fun acc f => bumpFile acc (resolve f sec).specificOwners) acc
        fs).map Prod.fst).Nodup := by
    intro fs
    induction fs with
    | nil => intro acc h; exact h
    | cons f fs ih => intro acc h; exact ih _ (nodup_fst_bumpFile h)
  exact h files [] (by simp)

theorem insertRanked_perm (x : String × Nat) : ∀ l : List (String × Nat),
    (insertRanked x l).Perm (x :: l)
  | [] => List.Perm.refl _
  | y :: ys => by
    simp only [insertRanked]
    by_cases hy : y.2 > x.2
    · simp only [hy, if_pos]
      exact ((insertRanked_perm x ys).cons y).trans (List.Perm.swap x y ys)
    · simp only [hy, if_false]
      exact List.Perm.refl _

theorem sortRanked_perm : ∀ l : List (String × Nat), (sortRanked l).Perm l
  | [] => List.Perm.refl _
  | x :: xs =>
    (insertRanked_perm x (sortRanked xs)).trans ((sortRanked_perm xs).cons x)

theorem nodup_specificPortion (files : List String) (sec : Section) :
    (specificPortion files sec).Nodup := by
  unfold specificPortion
  exact ((sortRanked_perm (ownerFreqs files sec)).map Prod.fst).symm.nodup
    (nodup_fst_ownerFreqs files sec)

theorem nodup_rank (files : List String) (sec : Section) :
    (rank files sec).Nodup := by
  unfold rank
  refine List.Nodup.append (nodup_specificPortion files sec) ?_ ?_
  · split
    · exact (nodup_dedupKeepFirst _).filter _
    · exact List.nodup_nil
  · intro o ho hmem
    rcases (by split at hmem <;> [exact Or.inl hmem; exact Or.inr hmem] :
      o ∈ (dedupKeepFirst (globalOwners sec)).filter
          (fun o => !((specificPortion files sec).contains o)) ∨ o ∈ ([] : List String)) with
      h | h
    · have := (List.mem_filter.mp h).2
      simp only [Bool.not_eq_true'] at this
      exact absurd (List.elem_iff.mpr ho) (by simpa using this)
    · simp at h

end CodeOwners

namespace CodeOwners

theorem nodup_concatDedupe : ∀ (ls : List (List String)) (acc : List String),
    acc.Nodup → (∀ l ∈ ls, l.Nodup) → (concatDedupe acc ls).Nodup
  | [], acc, h, _ => h
  | l :: ls, acc, h, hls => by
    refine nodup_concatDedupe ls _ ?_ (fun l' hl' => hls l' (List.mem_cons_of_mem _ hl'))
    refine List.Nodup.append h ((hls l (List.mem_cons_self _ _)).filter _) ?_
    intro o ho hmem
    have := (List.mem_filter.mp hmem).2
    simp only [Bool.not_eq_true'] at this
    exact absurd (List.elem_iff.mpr ho) (by simpa using this)

theorem nodup_codeOwnersForSections (secs : List Section) (files : List String) :
    (codeOwnersForSections secs files).Nodup := by
  unfold codeOwnersForSections
  refine nodup_concatDedupe _ _ List.nodup_nil ?_
  intro l hl
  rcases List.mem_map.mp hl with ⟨sec, _, rfl⟩
  exact nodup_rank files sec

theorem concatDedupe_split : ∀ (ls : List (List String)) (acc : List String),
    ∃ rest, concatDedupe acc ls = acc ++ rest ∧
      ∀ o ∈ rest, o ∉ acc ∧ ∃ l ∈ ls, o ∈ l
  | [], acc => ⟨[], by simp [concatDedupe]⟩
  | l :: ls, acc => by
    rcases concatDedupe_split ls (acc ++ l.filter (fun o => !(acc.contains o))) with
      ⟨rest', heq, hrest'⟩
    refine ⟨l.filter (fun o => !(acc.contains o)) ++ rest', ?_, ?_⟩
    · simpa [concatDedupe, List.append_assoc] using heq
    · intro o ho
      rcases List.mem_append.mp ho with ho | ho
      · have hmem := List.mem_filter.mp ho
        refine ⟨?_, l, List.mem_cons_self _ _, hmem.1⟩
        have := hmem.2
        simp only [Bool.not_eq_true'] at this
        intro hacc
        exact absurd (List.elem_iff.mpr hacc) (by simpa using this)
      · rcases hrest' o ho with ⟨hnot, l', hl', hol'⟩
        exact ⟨fun hacc => hnot (List.mem_append.mpr (Or.inl hacc)),
          l', List.mem_cons_of_mem _ hl', hol'⟩

theorem filter_not_contains_nil (l : List String) :
    l.filter (fun o => !(([] : List String).contains o)) = l := by
  simp [List.filter_eq_self]

theorem insertRanked_sorted {x : String × Nat} :
    ∀ {l : List (String × Nat)}, l.Pairwise (fun a b => b.2 ≤ a.2) →
    (insertRanked x l).Pairwise (fun a b => b.2 ≤ a.2)
  | [], _ => List.pairwise_singleton _ _
  | y :: ys, h => by
    rcases List.pairwise_cons.mp h with ⟨hy, hys⟩
    simp only [insertRanked]
    by_cases hc : y.2 > x.2
    · simp only [hc, if_pos]
      refine List.pairwise_cons.mpr ⟨?_, insertRanked_sorted hys⟩
      intro z hz
      rcases List.mem_cons.mp ((insertRanked_perm x ys).mem_iff.mp hz) with h | h
      · exact h ▸ Nat.le_of_lt hc
      · exact hy z h
    · simp only [hc, if_false]
      refine List.pairwise_cons.mpr ⟨?_, h⟩
      intro z hz
      rcases List.mem_cons.mp hz with rfl | hz
      · exact Nat.le_of_not_lt hc
      · exact Nat.le_trans (hy z hz) (Nat.le_of_not_lt hc)

theorem sortRanked_sorted : ∀ l : List (String × Nat),
    (sortRanked l).Pairwise (fun a b => b.2 ≤ a.2)
  | [] => List.Pairwise.nil
  | _ :: xs => insertRanked_sorted (sortRanked_sorted xs)

theorem pair_sublist_of_mem {α : Type} {x y : α} : ∀ {l : List α},
    x ∈ l → y ∈ l → x ≠ y → [x, y].Sublist l ∨ [y, x].Sublist l := by
  intro l
  induction l with
  | nil => intro hx _ _; exact absurd hx (List.not_mem_nil x)
  | cons a t ih =>
    intro hx hy hxy
    by_cases hxa : x = a
    · subst hxa
      have hyt : y ∈ t := by
        rcases List.mem_cons.mp hy with h | h
        · exact absurd h.symm hxy
        · exact h
      exact Or.inl (List.cons_sublist_cons.mpr (List.singleton_sublist.mpr hyt))
    · by_cases hya : y = a
      · subst hya
        have hxt : x ∈ t := by
          rcases List.mem_cons.mp hx with h | h
          · exact absurd h hxa
          · exact h
        exact Or.inr (List.cons_sublist_cons.mpr (List.singleton_sublist.mpr hxt))
      · have hxt : x ∈ t := by
          rcases List.mem_cons.mp hx with h | h
          · exact absurd h hxa
          · exact h
        have hyt : y ∈ t := by
          rcases List.mem_cons.mp hy with h | h
          · exact absurd h hya
          · exact h
        rcases ih hxt hyt hxy with h | h
        · exact Or.inl (h.cons a)
        · exact Or.inr (h.cons a)

theorem sublist_insertRanked (x : String × Nat) : ∀ l : List (String × Nat),
    l.Sublist (insertRanked x l)
  | [] => List.nil_sublist _
  | y :: ys => by
    simp only [insertRanked]
    by_cases hc : y.2 > x.2
    · simp only [hc, if_pos]
      exact List.cons_sublist_cons.mpr (sublist_insertRanked x ys)
    · simp only [hc, if_false]
      exact List.sublist_cons_self x (y :: ys)

theorem insertRanked_pair {x y : String × Nat} : ∀ {l : List (String × Nat)},
    y ∈ l → y.2 ≤ x.2 → [x, y].Sublist (insertRanked x l)
  | [], hy, _ => absurd hy (List.not_mem_nil y)
  | z :: zs, hy, hle => by
    simp only [insertRanked]
    by_cases hc : z.2 > x.2
    · simp only [hc, if_pos]
      rcases List.mem_cons.mp hy with rfl | hy
      · exact absurd (Nat.lt_of_le_of_lt hle hc) (Nat.lt_irrefl _)
      · exact (insertRanked_pair hy hle).cons z
    · simp only [hc, if_false]
      exact List.cons_sublist_cons.mpr (List.singleton_sublist.mpr hy)

theorem sortRanked_stable {x y : String × Nat} : ∀ {l : List (String × Nat)},
    [x, y].Sublist l → y.2 ≤ x.2 → [x, y].Sublist (sortRanked l) := by
  intro l
  induction l with
  | nil => intro h _; exact absurd h (by simp)
  | cons a t ih =>
    intro h hle
    simp only [sortRanked]
    cases h with
    | cons _ h' =>
      exact (ih h' hle).trans (sublist_insertRanked a (sortRanked t))
    | cons₂ _ h' =>
      have hy : y ∈ sortRanked t :=
        (sortRanked_perm t).symm.mem_iff.mp (List.singleton_sublist.mp h')
      exact insertRanked_pair hy hle

end CodeOwners

namespace CodeOwners

theorem dropWhile_idem (p : Char → Bool) : ∀ l : List Char,
    (l.dropWhile p).dropWhile p = l.dropWhile p
  | [] => rfl
  | c :: cs => by
    by_cases h : p c
    · simp only [List.dropWhile_cons, h, if_pos]
      exact dropWhile_idem p cs
    · simp [List.dropWhile_cons, h]

theorem dropWhile_eq_self_of_prefix {p : Char → Bool} {z y : List Char}
    (hy : y.dropWhile p = y) (hz : z <+: y) : z.dropWhile p = z := by
  cases z with
  | nil => rfl
  | cons c cs =>
    cases y with
    | nil =>
      rcases hz with ⟨t, ht⟩
      simp at ht
    | cons d ds =>
      rcases hz with ⟨t, ht⟩
      have hcd : c = d := by
        have := congrArg (fun l => l.head?) ht
        simpa using this
      have hpd : p d = false := by
        by_cases hpd' : p d
        · rw [List.dropWhile_cons, if_pos hpd'] at hy
          have hlen := congrArg List.length hy
          have hle : (ds.dropWhile p).length ≤ ds.length :=
            (List.dropWhile_suffix p).sublist.length_le
          simp only [List.length_cons] at hlen
          omega
        · simpa using hpd'
      rw [List.dropWhile_cons, if_neg (by rw [hcd, hpd]; simp)]

theorem trimL_prefixOf (l : List Char) : trimL l <+: l.dropWhile isWs := by
  unfold trimL
  have hsuf : (l.dropWhile isWs).reverse.dropWhile isWs <:+ (l.dropWhile isWs).reverse :=
    List.dropWhile_suffix isWs
  have := List.reverse_prefix.mpr hsuf
  simpa using this

theorem trimL_idem (l : List Char) : trimL (trimL l) = trimL l := by
  have h1 : (l.dropWhile isWs).dropWhile isWs = l.dropWhile isWs := dropWhile_idem isWs l
  have h2 : (trimL l).dropWhile isWs = trimL l :=
    dropWhile_eq_self_of_prefix h1 (trimL_prefixOf l)
  show ((((trimL l).dropWhile isWs).reverse).dropWhile isWs).reverse = trimL l
  rw [h2]
  show (((((l.dropWhile isWs).reverse.dropWhile isWs).reverse).reverse).dropWhile isWs).reverse
    = trimL l
  rw [List.reverse_reverse, dropWhile_idem]
  rfl

theorem mem_trimL {a : Char} {l : List Char} (h : a ∈ trimL l) : a ∈ l := by
  unfold trimL at h
  rw [List.mem_reverse] at h
  have h2 := (List.dropWhile_suffix isWs).sublist.mem h
  rw [List.mem_reverse] at h2
  exact (List.dropWhile_suffix isWs).sublist.mem h2

theorem hash_not_mem_stripCommentL (l : List Char) : '#' ∉ stripCommentL l := by
  intro h
  have h1 : '#' ∈ l.takeWhile (fun c => !(c == '#')) := mem_trimL h
  have := List.mem_takeWhile_imp h1
  simp at this

theorem trimL_stripCommentL (l : List Char) :
    trimL (stripCommentL l) = stripCommentL l := trimL_idem _

theorem parseHeaderCore_eq_none {l : List Char} {opt : Bool}
    (h : ∀ c cs, l = c :: cs → c ≠ '[') : parseHeaderCore l opt = none := by
  cases l with
  | nil => rfl
  | cons c cs =>
    unfold parseHeaderCore
    simp [beq_eq_false_iff_ne.mpr (h c cs rfl)]

theorem parseSectionHeader_eq_none {l : List Char}
    (h1 : ['['].isPrefixOf l = false) (h2 : ['^', '['].isPrefixOf l = false) :
    parseSectionHeader l = none := by
  unfold parseSectionHeader
  by_cases hp : ['^'].isPrefixOf l
  · rw [if_pos hp]
    apply parseHeaderCore_eq_none
    intro c cs hcs
    cases l with
    | nil => simp at hcs
    | cons a t =>
      simp only [List.isPrefixOf, Bool.and_true] at hp
      simp only [List.drop_succ_cons, List.drop_zero] at hcs
      subst hcs
      simp only [List.isPrefixOf] at h2
      intro hceq
      subst hceq
      rw [hp] at h2
      simp at h2
  · rw [if_neg hp]
    apply parseHeaderCore_eq_none
    intro c cs hcs
    subst hcs
    simp only [List.isPrefixOf, Bool.and_true] at h1
    intro hceq
    subst hceq
    simp at h1

theorem parseStep_of_no_header {st : List Section × Section} {line : List Char}
    (h : parseSectionHeader line = none) :
    ∃ rules', parseStep st line = (st.1, { st.2 with rules := rules' }) := by
  unfold parseStep
  rw [h]
  cases hr : parseRuleLine line with
  | none => exact ⟨st.2.rules, rfl⟩
  | some r => exact ⟨_, rfl⟩

end CodeOwners

set_option maxRecDepth 4000000

namespace CodeOwners

/-- C5: `codeOwnersFor` never raises: a failed read of the ownership file, an
absent ownership file, and an empty changed-file list each resolve to the
empty list instead of propagating an error (the function itself is total by
construction). -/
theorem codeOwnersFor_absorbs_failures :
    (∀ (files : List String) (strategy : Strategy),
      codeOwnersFor (Except.error ()) files strategy = [])
    ∧ (∀ (files : List String) (strategy : Strategy),
      codeOwnersFor (Except.ok none) files strategy = [])
    ∧ (∀ (text : String) (strategy : Strategy),
      codeOwnersFor (Except.ok (some text)) [] strategy = []) :=
  ⟨fun _ _ => rfl, fun _ _ => rfl, fun _ _ => rfl⟩

/-- C2: a winning rule declared with a pattern and no owner tokens (an orphan
rule, distinct from the global `*` rule) contributes no specific owners and
does not trigger the section's fallback; and the document
`"* @jimmy\nyarn.lock"` with changed files `["yarn.lock"]` yields `[]`. -/
theorem orphan_rule_suppresses_fallback :
    (∀ (sec : Section) (f : String) (r : Rule),
      winningRule f sec.rules = some r → r.owners = [] → r.pattern ≠ "*" →
      resolve f sec = ⟨[], false⟩)
    ∧ codeOwnersFor (Except.ok (some orphanDoc)) ["yarn.lock"]
        Strategy.default = [] := by
  constructor
  · intro sec f r hwin howners hpat
    unfold resolve
    rw [hwin]
    simp [hpat, howners]
  · decide

/-- C2 witness: the orphan `yarn.lock` rule wins over the global rule for the
file `yarn.lock` and suppresses even the fallback. -/
theorem orphan_rule_suppresses_fallback_witness :
    resolve "yarn.lock" orphanSection = ⟨[], false⟩ :=
  orphan_rule_suppresses_fallback.1 orphanSection "yarn.lock" ⟨"yarn.lock", []⟩
    (by decide) rfl (by decide)

/-- C1: whenever at least one changed file's contribution triggers the
fallback, the section's ranked result is its specific portion followed by a
block drawn only from the global rule's owners (never interleaved); and the
document `"* @jimmy\npackage.json @john @maria"` with changed files
`["package.json"]` resolves to `["@john", "@maria", "@jimmy"]`. -/
theorem global_rule_owners_come_last :
    (∀ (sec : Section) (files : List String), triggersAny files sec = true →
      ∃ fb, rank files sec = specificPortion files sec ++ fb ∧
        ∀ o ∈ fb, o ∈ globalOwners sec)
    ∧ codeOwnersFor (Except.ok (some specificDoc)) ["package.json"]
        Strategy.default = ["@john", "@maria", "@jimmy"] := by
  constructor
  · intro sec files htrig
    refine ⟨(dedupKeepFirst (globalOwners sec)).filter
      (fun o => !((specificPortion files sec).contains o)), ?_, ?_⟩
    · simp [rank, htrig]
    · intro o ho
      exact mem_dedupKeepFirst (List.mem_filter.mp ho).1
  · decide

/-- C1 witness: instantiated at a section holding only the global rule and
one changed file, which triggers the fallback. -/
theorem global_rule_owners_come_last_witness :
    ∃ fb, rank ["README.md"] witnessSection
        = specificPortion ["README.md"] witnessSection ++ fb ∧
      ∀ o ∈ fb, o ∈ globalOwners witnessSection :=
  global_rule_owners_come_last.1 witnessSection ["README.md"] (by decide)

end CodeOwners

namespace CodeOwners

/-- C7: under the default strategy every cleaned line whose tokens are
`p :: os` becomes the rule `⟨p, os⟩` of the single implicit section — in
particular a line beginning with a bracketed token, as in the Gitea-style
document, becomes an ordinary rule rather than a section header or being
discarded. -/
theorem default_strategy_lines_are_rules :
    (∀ (text : String) (l : List Char), l ∈ cleanLinesL text.toList →
      ∀ (p : List Char) (os : List (List Char)), tokensL l = p :: os →
      ∀ sec ∈ parseDefault text,
        (⟨String.mk p, os.map String.mk⟩ : Rule) ∈ sec.rules)
    ∧ (parseDefault giteaDoc).map Section.rules =
        [[⟨"[0-3].*/*.md$", ["@reviewer-03"]⟩, ⟨"002-file.md", []⟩,
          ⟨"[4-9].*/*.md$", ["@reviewer-49"]⟩]] := by
  constructor
  · intro text l hl p os htok sec hsec
    rcases List.mem_singleton.mp hsec with rfl
    show _ ∈ (cleanLinesL text.toList).filterMap parseRuleLine
    exact List.mem_filterMap.mpr ⟨l, hl, by simp [parseRuleLine, htok]⟩
  · decide

/-- C7 witness: the bracketed Gitea line of the document becomes a rule with
that pattern in the implicit default section. -/
theorem default_strategy_lines_are_rules_witness :
    (⟨"[0-3].*/*.md$", ["@reviewer-03"]⟩ : Rule) ∈
      (⟨none, [], false,
        (cleanLinesL giteaDoc.toList).filterMap parseRuleLine⟩ : Section).rules :=
  default_strategy_lines_are_rules.1 giteaDoc
    "[0-3].*/*.md$ @reviewer-03".toList (by decide)
    "[0-3].*/*.md$".toList ["@reviewer-03".toList] (by decide)
    ⟨none, [], false, (cleanLinesL giteaDoc.toList).filterMap parseRuleLine⟩
    (by simp [parseDefault])

/-- C9: every line surviving the cleaning pass is non-blank, already trimmed
and free of `#`; and the document with comment lines, whitespace-only lines
and inline comments resolves exactly like its clean equivalent, to
`["@john", "@maria", "@jimmy"]`. -/
theorem comments_and_whitespace_stripped :
    (∀ (t : List Char) (l : List Char), l ∈ cleanLinesL t →
      l ≠ [] ∧ trimL l = l ∧ '#' ∉ l)
    ∧ codeOwnersFor (Except.ok (some messyDoc)) ["package.json"] Strategy.default
        = ["@john", "@maria", "@jimmy"]
    ∧ codeOwnersFor (Except.ok (some messyDoc)) ["package.json"] Strategy.default
        = codeOwnersFor (Except.ok (some cleanDoc)) ["package.json"]
            Strategy.default := by
  refine ⟨?_, by decide, by decide⟩
  intro t l hl
  have hmem := List.mem_filter.mp hl
  rcases List.mem_map.mp hmem.1 with ⟨l₀, _, rfl⟩
  refine ⟨?_, trimL_stripCommentL l₀, hash_not_mem_stripCommentL l₀⟩
  intro hnil
  have h2 := hmem.2
  rw [hnil] at h2
  simp at h2

/-- C9 witness: the cleaned form of the messy document's rule line
`"   * @jimmy     # inline comment     "` is non-blank, trimmed and free of
`#`. -/
theorem comments_and_whitespace_stripped_witness :
    "* @jimmy".toList ≠ [] ∧ trimL "* @jimmy".toList = "* @jimmy".toList
      ∧ '#' ∉ "* @jimmy".toList :=
  comments_and_whitespace_stripped.1 messyDoc.toList "* @jimmy".toList (by decide)

/-- C6: under the sectioned strategy a line opens a section only when the
trimmed line starts with `[` or with the optional marker `^[`; any other line
leaves the accumulated sections and the current section's identity untouched
(only its rule list may grow); the mid-line bracket of
`"Something before [Tests] @tests-team"` is not a header, and a change to
`tests/setup.ts` never yields `@tests-team`. -/
theorem section_header_only_at_line_start :
    (∀ l : List Char, ['['].isPrefixOf l = false →
      ['^', '['].isPrefixOf l = false → parseSectionHeader l = none)
    ∧ (∀ (st : List Section × Section) (line : List Char),
      parseSectionHeader line = none →
      ∃ rules', parseStep st line = (st.1, { st.2 with rules := rules' }))
    ∧ parseSectionHeader "Something before [Tests] @tests-team".toList = none
    ∧ (codeOwnersFor (Except.ok (some sectionedDoc)) ["tests/setup.ts"]
        Strategy.sectioned).contains "@tests-team" = false :=
  ⟨fun _ h1 h2 => parseSectionHeader_eq_none h1 h2,
    fun _ _ h => parseStep_of_no_header h, by decide, by decide⟩

/-- C6 witness: a plain rule line neither opens a section nor disturbs the
parser state beyond the current section's rule list. -/
theorem section_header_only_at_line_start_witness :
    parseSectionHeader "docs/".toList = none
    ∧ ∃ rules', parseStep ([], ⟨none, [], false, []⟩) "docs/".toList
        = ([], { (⟨none, [], false, []⟩ : Section) with rules := rules' }) :=
  ⟨section_header_only_at_line_start.1 "docs/".toList (by decide) (by decide),
    section_header_only_at_line_start.2.1 ([], ⟨none, [], false, []⟩)
      "docs/".toList (by decide)⟩

end CodeOwners

namespace CodeOwners

/-- C4: appending a section `s` at the end of the declaration order makes its
ranked result the head of the engine's output — sections are evaluated most
recently declared first — and everything after it comes from earlier-declared
sections, deduped against `s`'s owners; in the sectioned scenario the
`[Database]`, `[Documentation]` and default sections contribute in exactly
that order. -/
theorem sections_ranked_in_reverse_order :
    (∀ (secs : List Section) (s : Section) (files : List String),
      ∃ rest, codeOwnersForSections (secs ++ [s]) files
          = rank files s ++ rest ∧
        ∀ o ∈ rest, o ∉ rank files s ∧ ∃ sec ∈ secs, o ∈ rank files sec)
    ∧ codeOwnersFor (Except.ok (some sectionedDoc)) ["model/db/CHANGELOG.txt"]
        Strategy.sectioned
      = ["@database-team", "@docs-team", "@general-approvers"] := by
  constructor
  · intro secs s files
    have hrw : codeOwnersForSections (secs ++ [s]) files
        = concatDedupe (rank files s) (secs.reverse.map (rank files)) := by
      unfold codeOwnersForSections
      rw [List.reverse_append]
      simp only [List.reverse_cons, List.reverse_nil, List.nil_append,
        List.singleton_append, List.map_cons, concatDedupe,
        filter_not_contains_nil]
      rfl
    rcases concatDedupe_split (secs.reverse.map (rank files)) (rank files s) with
      ⟨rest, heq, hrest⟩
    refine ⟨rest, hrw.trans heq, ?_⟩
    intro o ho
    rcases hrest o ho with ⟨hnot, l, hl, hol⟩
    rcases List.mem_map.mp hl with ⟨sec, hsec, rfl⟩
    exact ⟨hnot, sec, List.mem_reverse.mp hsec, hol⟩
  · decide

/-- C4 witness: with a single appended section its ranked result is the whole
output and nothing follows it. -/
theorem sections_ranked_in_reverse_order_witness :
    ∃ rest, codeOwnersForSections ([] ++ [witnessSection]) ["README.md"]
        = rank ["README.md"] witnessSection ++ rest ∧
      ∀ o ∈ rest, o ∉ rank ["README.md"] witnessSection ∧
        ∃ sec ∈ ([] : List Section), o ∈ rank ["README.md"] sec :=
  sections_ranked_in_reverse_order.1 [] witnessSection ["README.md"]

/-- C8: the engine's output never contains a duplicate owner, on every input;
and in the regression scenario the owner matched both by a specific rule and
by the global rule appears exactly once, at its specific-portion position. -/
theorem codeOwnersFor_no_duplicates :
    (∀ (readResult : Except Unit (Option String)) (files : List String)
      (strategy : Strategy), (codeOwnersFor readResult files strategy).Nodup)
    ∧ codeOwnersFor (Except.ok (some regressionDoc)) ["server/pom.xml"]
        Strategy.default
      = ["@reviewer-1", "@reviewer-2", "@reviewer-3", "@reviewer-4",
          "@reviewer-5"] := by
  constructor
  · intro readResult files strategy
    cases readResult with
    | error e => exact List.nodup_nil
    | ok o =>
      cases o with
      | none => exact List.nodup_nil
      | some text =>
        by_cases hf : files.isEmpty
        · simp [codeOwnersFor, hf]
        · simp only [codeOwnersFor, hf, Bool.false_eq_true, if_false]
          exact nodup_codeOwnersForSections _ _
  · decide

/-- C3: an owner whose specific rules match strictly more distinct changed
files is placed strictly before an owner matching fewer; equal-frequency
owners keep first-encounter order; and the monorepo scenario resolves to
`["@jimmy", "@maria", "@john"]`. -/
theorem owner_frequency_ranking :
    (∀ (files : List String) (sec : Section) (o₁ o₂ : String) (c₁ c₂ : Nat),
      (o₁, c₁) ∈ ownerFreqs files sec → (o₂, c₂) ∈ ownerFreqs files sec →
      c₂ < c₁ → [o₁, o₂].Sublist (specificPortion files sec))
    ∧ (∀ (files : List String) (sec : Section) (o₁ o₂ : String) (c : Nat),
      [(o₁, c), (o₂, c)].Sublist (ownerFreqs files sec) →
      [o₁, o₂].Sublist (specificPortion files sec))
    ∧ codeOwnersFor (Except.ok (some monorepoDoc))
        ["packages/d/x", "packages/e/y", "yarn.lock"] Strategy.default
      = ["@jimmy", "@maria", "@john"] := by
  refine ⟨?_, ?_, by decide⟩
  · intro files sec o₁ o₂ c₁ c₂ h₁ h₂ hlt
    have hne : ((o₁, c₁) : String × Nat) ≠ (o₂, c₂) := by
      intro h
      have := congrArg Prod.snd h
      simp only at this
      omega
    have h₁' : (o₁, c₁) ∈ sortRanked (ownerFreqs files sec) :=
      (sortRanked_perm _).symm.mem_iff.mp h₁
    have h₂' : (o₂, c₂) ∈ sortRanked (ownerFreqs files sec) :=
      (sortRanked_perm _).symm.mem_iff.mp h₂
    rcases pair_sublist_of_mem h₁' h₂' hne with h | h
    · exact h.map Prod.fst
    · exfalso
      have hp := List.Pairwise.sublist h (sortRanked_sorted (ownerFreqs files sec))
      rcases List.pairwise_cons.mp hp with ⟨hrel, _⟩
      have := hrel (o₁, c₁) (List.mem_singleton.mpr rfl)
      simp only at this
      omega
  · intro files sec o₁ o₂ c hsub
    exact (sortRanked_stable hsub (Nat.le_refl c)).map Prod.fst

/-- C3 witness: `@x` matches two files against `@y`'s one and ranks first;
at equal frequency the first-encountered owner stays first. -/
theorem owner_frequency_ranking_witness :
    ["@x", "@y"].Sublist (specificPortion ["x1", "x2", "y1"] rankSection)
    ∧ ["@x", "@y"].Sublist (specificPortion ["x1", "y1"] rankSection) :=
  ⟨owner_frequency_ranking.1 ["x1", "x2", "y1"] rankSection "@x" "@y" 2 1
      (by decide) (by decide) (by decide),
    owner_frequency_ranking.2.1 ["x1", "y1"] rankSection "@x" "@y" 1
      (by decide)⟩

end CodeOwners

namespace Npm

/-- C10: `extractPackageFile` returns `none` (and, being total, cannot
throw) whenever the content fails to parse as JSON; and it also returns
`none` when the extracted result has no dependencies and the package file has
no package name, no package-file version, no computed npmrc and no
workspaces. -/
theorem extractPackageFile_null_cases :
    (∀ (YC : Type) (env : NpmEnv YC) (content packageFile : String)
      (config : ExtractConfig), env.parseJson content = none →
      extractPackageFile env content packageFile config = none)
    ∧ (∀ (YC : Type) (env : NpmEnv YC) (content packageFile : String)
      (config : ExtractConfig) (pj : NpmPackage) (res : PackageJsonRes),
      env.parseJson content = some pj →
      env.extractPackageJson pj packageFile = some res →
      res.deps = [] →
      truthyStr (match res.managerData with
        | some md => md.packageJsonName
        | none => none) = false →
      truthyStr res.packageFileVersion = false →
      truthyStr (computeNpmrc env packageFile config).1 = false →
      workspacesPackagesOf pj = none →
      extractPackageFile env content packageFile config = none) := by
  constructor
  · intro YC env content packageFile config h
    unfold extractPackageFile
    rw [h]
  · intro YC env content packageFile config pj res hparse hres hdeps hname hver
      hnpmrc hws
    unfold extractPackageFile
    simp only [hparse, hres, hdeps, hws, hname, hver, hnpmrc, List.isEmpty_nil,
      Option.isSome_none, Bool.or_false, Bool.not_false, Bool.and_self,
      if_true]

/-- C10 witness: with the concrete environment, a non-JSON document and an
empty package file both extract to `none`. -/
theorem extractPackageFile_null_cases_witness :
    extractPackageFile unitEnv "not json" "package.json" witnessConfig = none
    ∧ extractPackageFile unitEnv "\x7b\x7d" "package.json" witnessConfig
        = none :=
  ⟨extractPackageFile_null_cases.1 Unit unitEnv "not json" "package.json"
      witnessConfig (by decide),
    extractPackageFile_null_cases.2 Unit unitEnv "\x7b\x7d" "package.json"
      witnessConfig witnessPackage witnessRes (by decide) rfl rfl rfl rfl
      (by decide) rfl⟩

end Npm

namespace Npm

/-- Fidelity checks of `stripPackageLockSetting` against the host regex
`/(^|\n)package-lock.*?(\n|$)/g` replaced by `\n`: a lone `package-lock`
line yields the truthy `"\n"` (not `""`), and the `g`-flag scan consumes the
terminating newline, so the directly following `package-lock` line keeps no
`\n` to anchor on and survives. -/
theorem stripPackageLockSetting_matches_regex :
    stripPackageLockSetting "package-lock=false" = "\n"
    ∧ stripPackageLockSetting "package-lock=a\npackage-lock=b"
        = "\npackage-lock=b"
    ∧ stripPackageLockSetting "a=1\npackage-lock=false\nb=2" = "a=1\nb=2"
    ∧ stripPackageLockSetting "a=1\npackage-lock=x\npackage-lock=y\nb=2"
        = "a=1\npackage-lock=y\nb=2"
    ∧ stripPackageLockSetting "\npackage-lock=a" = "\n"
    ∧ stripPackageLockSetting "xpackage-lock=1" = "xpackage-lock=1" :=
  ⟨by decide, by decide, by decide, by decide, by decide, by decide⟩

end Npm
